import Mathlib

/-!
# ipfs-sync: the hash-tracking store (`db.go`)

A shallow embedding of `db.go` and the proofs of its specification.

* Byte slices are lists of bytes. A nil slice and an empty slice are both the
  empty list: the code only ever looks at a slice through `string(...)`, which
  does not tell them apart.
* A store key is `[]byte(fh.PathOnDisk)`; the conversion is injective, so keys
  are the path strings themselves.
* Pointers that can be nil (`DB`, the receiver `fh`, a returned `*FileHash`,
  a returned map) are `Option`s, `none` being nil. Dereferencing goes through
  `deref`, which panics on nil the way Go does.
* The key-value store and the filesystem are outside the repository. The store
  is an ideal map from key to value that also records the operations performed
  on it; the filesystem says, for each path, whether opening or reading it
  fails or what bytes it holds.
-/

namespace IpfsSync

/-- A byte slice. -/
abbrev Bytes := List (Fin 256)

/-- A Go `error` value, identified by its message. -/
abbrev GoError := String

/-- A run-time panic of the Go program. -/
inductive Panic where
  | nilDereference
  | indexOutOfRange
  deriving DecidableEq, Repr

/-- Follow a pointer: a nil pointer panics. -/
def deref {α : Type} (p : Option α) : Except Panic α :=
  match p with
  | some a => .ok a
  | none => .error Panic.nilDereference

/-! ## The key-value store -/

/-- One operation performed on the store. -/
inductive DBOp where
  | get (key : String)
  | put (key : String) (value : Bytes)
  | delete (key : String)
  deriving DecidableEq, Repr

/-- The store behind `*leveldb.DB`: `data` is the map from key to value,
`ops` the operations performed so far, oldest first. -/
structure LevelDB where
  data : String → Option Bytes
  ops : List DBOp

namespace LevelDB

/-- The error `DB.Get` returns for a key that is not in the store. -/
def ErrNotFound : GoError := "leveldb: not found"

/-- The call `DB.Get(key, nil)`: the value and a nil error, or a nil value and
`ErrNotFound`. -/
def Get (db : LevelDB) (key : String) : (Bytes × Option GoError) × LevelDB :=
  let db1 : LevelDB := { db with ops := db.ops ++ [DBOp.get key] }
  match db.data key with
  | some v => ((v, none), db1)
  | none => (([], some ErrNotFound), db1)

/-- The call `DB.Put(key, value, nil)`, which succeeds: `key` now maps to `value`. -/
def Put (db : LevelDB) (key : String) (value : Bytes) : Option GoError × LevelDB :=
  (none, { data := fun k => if k = key then some value else db.data k,
           ops := db.ops ++ [DBOp.put key value] })

/-- The call `DB.Delete(key, nil)`: `key` maps to nothing afterwards; deleting a key
that is not there is not an error. -/
def Delete (db : LevelDB) (key : String) : Option GoError × LevelDB :=
  (none, { data := fun k => if k = key then none else db.data k,
           ops := db.ops ++ [DBOp.delete key] })

end LevelDB

/-! ## The hash record -/

/-- The `FileHash` struct. -/
structure FileHash where
  PathOnDisk : String
  Hash : Bytes
  deriving DecidableEq, Repr

/-- The state the record methods work on: the global `DB` handle and the
record the receiver `fh` points to (`none` is nil in both). -/
structure World where
  DB : Option LevelDB
  fh : Option FileHash

/-- The method `func (fh *FileHash) Update() bool`: the returned flag and the
state after the call. -/
def Update (w : World) : Except Panic (Bool × World) :=
  if w.DB.isNone || w.fh.isNone then
    .ok (false, w)
  else do
    let db ← deref w.DB
    let r ← deref w.fh
    let ((dbhash, err), db1) := db.Get r.PathOnDisk
    if err.isSome || dbhash ≠ r.Hash then
      let (_, db2) := db1.Put r.PathOnDisk r.Hash
      .ok (true, { w with DB := some db2 })
    else
      .ok (false, { w with DB := some db1 })

/-- The method `func (fh *FileHash) Delete()`: the state after the call. -/
def Delete (w : World) : Except Panic World :=
  if w.DB.isNone || w.fh.isNone then
    .ok w
  else do
    let db ← deref w.DB
    let r ← deref w.fh
    let (_, db1) := db.Delete r.PathOnDisk
    .ok { w with DB := some db1 }

/-! ## The filesystem -/

/-- What the filesystem holds at a path, as a reader sees it: `os.Open` fails,
or it succeeds and reading fails after `readSoFar`, or the whole `content` can
be read. -/
inductive FileState where
  | openFails (err : GoError)
  | readFails (readSoFar : Bytes) (err : GoError)
  | readable (content : Bytes)
  deriving DecidableEq, Repr

/-- A call the program makes on the filesystem. -/
inductive FSEvent where
  | opened (path : String)
  | closed (path : String)
  deriving DecidableEq, Repr

/-- The filesystem: what each path holds, and the calls made so far, oldest
first. -/
structure Disk where
  files : String → FileState
  events : List FSEvent

/-- An open `*os.File`: its path, the bytes a reader gets from it and the
error, if any, that ends the reading. -/
structure File where
  path : String
  stream : Bytes
  readErr : Option GoError
  deriving DecidableEq, Repr

/-- The call `os.Open(path)`: a file handle or an error. Every call is
recorded. -/
def osOpen (d : Disk) (path : String) : Except GoError File × Disk :=
  let d1 : Disk := { d with events := d.events ++ [FSEvent.opened path] }
  match d.files path with
  | FileState.openFails err => (.error err, d1)
  | FileState.readFails readSoFar err => (.ok ⟨path, readSoFar, some err⟩, d1)
  | FileState.readable content => (.ok ⟨path, content, none⟩, d1)

/-- The call `f.Close()`. -/
def File.Close (f : File) (d : Disk) : Disk :=
  { d with events := d.events ++ [FSEvent.closed f.path] }

/-- The call `io.Copy(hash, f)` into a fresh hash: the bytes written into the
hash and the error of the copy. -/
def ioCopy (f : File) : Bytes × Option GoError :=
  (f.stream, f.readErr)

/-- The method `func (fh *FileHash) Recalculate(PathOnDisk string) *FileHash`,
with `sha224 b` the SHA-224 digest of `b` (what `hash.Sum(nil)` gives after `b` was
written into `sha256.New224()`). The result is the record behind the returned
pointer (`none` for nil), the state and the filesystem after the call. -/
def Recalculate (sha224 : Bytes → Bytes) (w : World) (d : Disk) (PathOnDisk : String) :
    Except Panic (Option FileHash × World × Disk) := do
  let r ← deref w.fh
  let r1 : FileHash := { r with PathOnDisk := PathOnDisk }
  let w1 : World := { w with fh := some r1 }
  match osOpen d r1.PathOnDisk with
  | (.error _, d1) => .ok (none, w1, d1)
  | (.ok f, d1) =>
    let (written, err) := ioCopy f
    if err.isSome then
      .ok (none, w1, f.Close d1)
    else
      let d2 := f.Close d1
      let r2 : FileHash := { r1 with Hash := sha224 written }
      .ok (some r2, { w1 with fh := some r2 }, d2)

/-! ## The directory scan -/

/-- Cut a list of characters at every `sep`. -/
def splitChars (sep : Char) : List Char → List (List Char)
  | [] => [[]]
  | c :: cs =>
    if c = sep then [] :: splitChars sep cs
    else
      match splitChars sep cs with
      | [] => [[c]]
      | piece :: pieces => (c :: piece) :: pieces

/-- The call `strings.Split(s, sep)` for a separator of one ASCII character. (Go
cuts the UTF-8 bytes; an ASCII byte is never part of another character, so cutting
the characters gives the same pieces.) -/
def stringsSplit (s : String) (sep : Char) : List String :=
  (splitChars sep s.toList).map String.mk

/-- The index expression `xs[i]`: an index outside the slice panics. -/
def sliceIndex {α : Type} (xs : List α) (i : Int) : Except Panic α :=
  if i < 0 then .error Panic.indexOutOfRange
  else
    match xs.get? i.toNat with
    | some a => .ok a
    | none => .error Panic.indexOutOfRange

/-- Search `slice` from position `i` on. -/
def findFrom (i : Int) : List String → String → Int
  | [], _ => -1
  | s :: rest, val => if s = val then i else findFrom (i + 1) rest val

/-- Modelled from the spec: `findInStringSlice` is called by `HashDir` but is
not defined in `db.go`. It returns the index of the entry in the list, or -1
when the entry is absent. -/
def findInStringSlice (slice : List String) (val : String) : Int :=
  findFrom 0 slice val

/-- A Go `map[string]*FileHash`: its entries, no key twice. -/
abbrev GoMap := List (String × FileHash)

/-- The map index `m[key]`, `none` when `key` is not in the map. -/
def GoMap.get (m : GoMap) (key : String) : Option FileHash :=
  match m with
  | [] => none
  | (k, v) :: rest => if k = key then some v else GoMap.get rest key

/-- The assignment `m[key] = value`. -/
def GoMap.set (m : GoMap) (key : String) (value : FileHash) : GoMap :=
  (key, value) :: m.filter (fun e => !decide (e.1 = key))

/-- The keys of the map. -/
def GoMap.keys (m : GoMap) : List String :=
  m.map Prod.fst

/-- The test `findInStringSlice(Ignore, splitName[len(splitName)-1]) > -1` of
`HashDir`: whether `file` is skipped. -/
def ignored (Ignore : List String) (file : String) : Except Panic Bool := do
  let splitName := stringsSplit file '.'
  let last ← sliceIndex splitName ((splitName.length : Int) - 1)
  .ok (decide (findInStringSlice Ignore last > -1))

/-- The `for _, file := range files` loop of `HashDir`, from the map `hashes`
built so far: the returned pair (map, error) and the filesystem afterwards. -/
def hashLoop (sha224 : Bytes → Bytes) (Ignore : List String) :
    List String → GoMap → Disk → Except Panic ((Option GoMap × Option GoError) × Disk)
  | [], hashes, d => .ok ((some hashes, none), d)
  | file :: rest, hashes, d => do
    let skip ← ignored Ignore file
    if skip then
      hashLoop sha224 Ignore rest hashes d
    else
      match osOpen d file with
      | (.error err, d1) => .ok ((none, some err), d1)
      | (.ok f, d1) =>
        match ioCopy f with
        | (_, some err) => .ok ((none, some err), f.Close d1)
        | (written, none) =>
          hashLoop sha224 Ignore rest (GoMap.set hashes file ⟨file, sha224 written⟩)
            (f.Close d1)

/-- The function `func HashDir(path string) (map[string]*FileHash, error)`. The
directory walk `filePathWalkDir` and the ignore-list `Ignore` are declared outside
`db.go` and are taken as given: the walk returns the file paths it found and an
error. -/
def HashDir (filePathWalkDir : String → List String × Option GoError)
    (sha224 : Bytes → Bytes) (Ignore : List String) (d : Disk) (path : String) :
    Except Panic ((Option GoMap × Option GoError) × Disk) :=
  match filePathWalkDir path with
  | (_, some err) => .ok ((none, some err), d)
  | (files, none) => hashLoop sha224 Ignore files [] d

/-- The method `Update` called on each record of `records` in turn: the flag
each call returned, by path, and the store handle afterwards. -/
def updateAll : List FileHash → Option LevelDB →
    Except Panic (List (String × Bool) × Option LevelDB)
  | [], DB => .ok ([], DB)
  | r :: rest, DB => do
    let (changed, w1) ← Update ⟨DB, some r⟩
    let (report, DB2) ← updateAll rest w1.DB
    .ok ((r.PathOnDisk, changed) :: report, DB2)

/-- Modelled from the spec: the reconciliation pass is not in `db.go`. It is
`HashDir` on the root, then `Update` on every record `HashDir` returns; a
failed scan updates nothing. Go leaves the order of a range over a map open;
the pass takes the records in the order of the entries. The result is the
change report (`none` when the scan failed) and the store handle afterwards. -/
def reconcile (filePathWalkDir : String → List String × Option GoError)
    (sha224 : Bytes → Bytes) (Ignore : List String) (d : Disk) (DB : Option LevelDB)
    (root : String) : Except Panic (Option (List (String × Bool)) × Option LevelDB) := do
  let ((hashes, _), _) ← HashDir filePathWalkDir sha224 Ignore d root
  match hashes with
  | none => .ok (none, DB)
  | some m =>
    let (report, DB1) ← updateAll (m.map Prod.snd) DB
    .ok (some report, DB1)

/-! ## The exclusion policy as the specification words it -/

/-- The part of `cs` after the final `c`, or all of `cs` when `c` does not
occur in it. -/
def afterFinal (c : Char) : List Char → List Char
  | [] => []
  | x :: xs =>
    if c ∈ xs then afterFinal c xs
    else if x = c then xs
    else x :: xs

/-- The filename of a path: its last component. -/
def specFilename (path : String) : String :=
  String.mk (afterFinal '/' path.toList)

/-- The part of a path after its final `.`, or the entire path when it
contains no `.`. -/
def lastDotPiece (path : String) : String :=
  String.mk (afterFinal '.' path.toList)

/-- Whether the whole file at `path` can be read. -/
def Disk.readable (d : Disk) (path : String) : Bool :=
  match d.files path with
  | FileState.readable _ => true
  | _ => false

/-- The bytes a complete read of `path` gives (nothing when it cannot be
read). -/
def Disk.content (d : Disk) (path : String) : Bytes :=
  match d.files path with
  | FileState.readable content => content
  | _ => []

/-- The extension of a path as the specification defines it: the substring
after the final `.` in its filename, or the entire filename when the filename
contains no `.`. -/
def specExtension (path : String) : String :=
  String.mk (afterFinal '.' (specFilename path).toList)

/-! ## The record methods against the store -/

/-- What `Update` does with an open store and a record, whatever the store
holds. -/
theorem Update_open (db : LevelDB) (r : FileHash) :
    Update ⟨some db, some r⟩ =
      if db.data r.PathOnDisk = some r.Hash then
        .ok (false, ⟨some ⟨db.data, db.ops ++ [DBOp.get r.PathOnDisk]⟩, some r⟩)
      else
        .ok (true, ⟨some ⟨fun k => if k = r.PathOnDisk then some r.Hash else db.data k,
          db.ops ++ [DBOp.get r.PathOnDisk, DBOp.put r.PathOnDisk r.Hash]⟩, some r⟩) := by
  cases hget : db.data r.PathOnDisk with
  | none =>
    simp [Update, deref, LevelDB.Get, LevelDB.Put, hget, bind, Except.bind]
  | some v =>
    by_cases hv : v = r.Hash
    · subst hv
      simp [Update, deref, LevelDB.Get, LevelDB.Put, hget, bind, Except.bind]
    · simp [Update, deref, LevelDB.Get, LevelDB.Put, hget, hv, bind, Except.bind]

/-- What `Delete` does with an open store and a record. -/
theorem Delete_open (db : LevelDB) (r : FileHash) :
    Delete ⟨some db, some r⟩ =
      .ok ⟨some ⟨fun k => if k = r.PathOnDisk then none else db.data k,
        db.ops ++ [DBOp.delete r.PathOnDisk]⟩, some r⟩ := by
  simp [Delete, deref, LevelDB.Delete, bind, Except.bind]

/-- C1: with an open store and a record (path, digest), when the store has no
value under path, or a value different from digest, `Update` returns true and
the store afterwards is the store before with the one key path set to digest:
reading path gives digest, every other key is as before, and the call made one
`Get` and one `Put`, both on path. -/
theorem Update_reports_changed_and_persists (db : LevelDB) (r : FileHash)
    (h : db.data r.PathOnDisk = none ∨ ∃ v, db.data r.PathOnDisk = some v ∧ v ≠ r.Hash) :
    ∃ db1 : LevelDB, Update ⟨some db, some r⟩ = .ok (true, ⟨some db1, some r⟩) ∧
      db1.data = (fun k => if k = r.PathOnDisk then some r.Hash else db.data k) ∧
      (db1.Get r.PathOnDisk).1 = (r.Hash, none) ∧
      (∀ k, k ≠ r.PathOnDisk → db1.data k = db.data k) ∧
      db1.ops = db.ops ++ [DBOp.get r.PathOnDisk, DBOp.put r.PathOnDisk r.Hash] := by
  have hne : db.data r.PathOnDisk ≠ some r.Hash := by
    rcases h with h | ⟨v, hv, hne⟩
    · simp [h]
    · rw [hv]
      intro heq
      exact hne (Option.some.inj heq)
  refine ⟨⟨fun k => if k = r.PathOnDisk then some r.Hash else db.data k,
    db.ops ++ [DBOp.get r.PathOnDisk, DBOp.put r.PathOnDisk r.Hash]⟩, ?_, rfl, ?_, ?_, rfl⟩
  · rw [Update_open, if_neg hne]
  · simp [LevelDB.Get]
  · intro k hk
    simp [hk]

/-- A store holding one digest under "a.txt" and a record with another digest
for that path: an instance of C1. -/
theorem Update_reports_changed_and_persists_witness :
    ∃ db1 : LevelDB,
      Update ⟨some ⟨fun k => if k = "a.txt" then some [1, 2] else none, []⟩,
          some ⟨"a.txt", [3, 4]⟩⟩ = .ok (true, ⟨some db1, some ⟨"a.txt", [3, 4]⟩⟩) ∧
      (db1.Get "a.txt").1 = ([3, 4], none) :=
  have h := Update_reports_changed_and_persists
    ⟨fun k => if k = "a.txt" then some [1, 2] else none, []⟩ ⟨"a.txt", [3, 4]⟩
    (Or.inr ⟨[1, 2], by simp, by decide⟩)
  h.elim fun db1 hdb => ⟨db1, hdb.1, hdb.2.2.1⟩

/-- C2: with an open store that already holds exactly digest under path,
`Update` returns false and performs no `Put`: the only operation of the call is
the `Get` of path, and the map of the store is the one before the call. -/
theorem Update_reports_unchanged_without_write (db : LevelDB) (r : FileHash)
    (h : db.data r.PathOnDisk = some r.Hash) :
    ∃ db1 : LevelDB, Update ⟨some db, some r⟩ = .ok (false, ⟨some db1, some r⟩) ∧
      db1.data = db.data ∧
      db1.ops = db.ops ++ [DBOp.get r.PathOnDisk] ∧
      (∀ k v, DBOp.put k v ∈ db1.ops → DBOp.put k v ∈ db.ops) := by
  refine ⟨⟨db.data, db.ops ++ [DBOp.get r.PathOnDisk]⟩, ?_, rfl, rfl, ?_⟩
  · rw [Update_open, if_pos h]
  · intro k v hmem
    simpa using hmem

/-- A store holding the digest of the record under its path: an instance of
C2. -/
theorem Update_reports_unchanged_without_write_witness :
    ∃ db1 : LevelDB,
      Update ⟨some ⟨fun k => if k = "a.txt" then some [1, 2] else none, []⟩,
          some ⟨"a.txt", [1, 2]⟩⟩ = .ok (false, ⟨some db1, some ⟨"a.txt", [1, 2]⟩⟩) ∧
      db1.ops = [DBOp.get "a.txt"] :=
  have h := Update_reports_unchanged_without_write
    ⟨fun k => if k = "a.txt" then some [1, 2] else none, []⟩ ⟨"a.txt", [1, 2]⟩ (by simp)
  h.elim fun db1 hdb => ⟨db1, hdb.1, by simpa using hdb.2.2.1⟩

/-- C3: with an open store and a record that is not modified between the
calls, `Update` called twice in succession returns false the second time and
leaves the map of the store as the first call left it, without a `Put`; when
the path was not in the store before, the first call returns true. -/
theorem Update_twice_second_unchanged (db : LevelDB) (r : FileHash) :
    ∃ (b1 : Bool) (db1 db2 : LevelDB),
      Update ⟨some db, some r⟩ = .ok (b1, ⟨some db1, some r⟩) ∧
      Update ⟨some db1, some r⟩ = .ok (false, ⟨some db2, some r⟩) ∧
      db2.data = db1.data ∧
      db2.ops = db1.ops ++ [DBOp.get r.PathOnDisk] ∧
      (db.data r.PathOnDisk = none → b1 = true) := by
  by_cases h : db.data r.PathOnDisk = some r.Hash
  · refine ⟨false, ⟨db.data, db.ops ++ [DBOp.get r.PathOnDisk]⟩,
      ⟨db.data, db.ops ++ [DBOp.get r.PathOnDisk] ++ [DBOp.get r.PathOnDisk]⟩,
      ?_, ?_, rfl, rfl, ?_⟩
    · rw [Update_open, if_pos h]
    · rw [Update_open, if_pos h]
    · intro hnone
      rw [hnone] at h
      cases h
  · refine ⟨true, ⟨fun k => if k = r.PathOnDisk then some r.Hash else db.data k,
        db.ops ++ [DBOp.get r.PathOnDisk, DBOp.put r.PathOnDisk r.Hash]⟩,
      ⟨fun k => if k = r.PathOnDisk then some r.Hash else db.data k,
        db.ops ++ [DBOp.get r.PathOnDisk, DBOp.put r.PathOnDisk r.Hash] ++
          [DBOp.get r.PathOnDisk]⟩,
      ?_, ?_, rfl, rfl, fun _ => rfl⟩
    · rw [Update_open, if_neg h]
    · rw [Update_open, if_pos (by simp)]

/-- An empty store and a new record: the first `Update` returns true, the
second false. An instance of C3. -/
theorem Update_twice_second_unchanged_witness :
    ∃ (db1 db2 : LevelDB),
      Update ⟨some ⟨fun _ => none, []⟩, some ⟨"a.txt", [1, 2]⟩⟩ =
        .ok (true, ⟨some db1, some ⟨"a.txt", [1, 2]⟩⟩) ∧
      Update ⟨some db1, some ⟨"a.txt", [1, 2]⟩⟩ =
        .ok (false, ⟨some db2, some ⟨"a.txt", [1, 2]⟩⟩) ∧
      db2.data = db1.data :=
  have h := Update_twice_second_unchanged ⟨fun _ => none, []⟩ ⟨"a.txt", [1, 2]⟩
  h.elim fun _ h1 => h1.elim fun db1 h2 => h2.elim fun db2 h3 =>
    ⟨db1, db2, (h3.2.2.2.2 rfl) ▸ h3.1, h3.2.1, h3.2.2.1⟩

/-- C7: with an open store and a record with path p, after `Delete` the store
has no entry for p and every other key is as before, whether or not p was
there; the store reports no error, deleting an absent key leaves the map of the
store as it was, and a second `Delete` gives the same map as the first. -/
theorem Delete_removes_key_idempotent (db : LevelDB) (r : FileHash) :
    ∃ (db1 db2 : LevelDB),
      Delete ⟨some db, some r⟩ = .ok ⟨some db1, some r⟩ ∧
      db1.data r.PathOnDisk = none ∧
      (db1.Get r.PathOnDisk).1 = ([], some LevelDB.ErrNotFound) ∧
      (∀ k, k ≠ r.PathOnDisk → db1.data k = db.data k) ∧
      (db.Delete r.PathOnDisk).1 = none ∧
      (db.data r.PathOnDisk = none → db1.data = db.data) ∧
      Delete ⟨some db1, some r⟩ = .ok ⟨some db2, some r⟩ ∧
      db2.data = db1.data := by
  refine ⟨⟨fun k => if k = r.PathOnDisk then none else db.data k,
      db.ops ++ [DBOp.delete r.PathOnDisk]⟩,
    ⟨fun k => if k = r.PathOnDisk then none
        else (fun k => if k = r.PathOnDisk then none else db.data k) k,
      db.ops ++ [DBOp.delete r.PathOnDisk] ++ [DBOp.delete r.PathOnDisk]⟩,
    Delete_open db r, by simp, by simp [LevelDB.Get], ?_, rfl, ?_, Delete_open _ r, ?_⟩
  · intro k hk
    simp [hk]
  · intro hnone
    funext k
    by_cases hk : k = r.PathOnDisk
    · simp [hk, hnone]
    · simp [hk]
  · funext k
    by_cases hk : k = r.PathOnDisk <;> simp [hk]

/-- A store that does not hold "a.txt": `Delete` of a record for "a.txt"
succeeds and leaves the map as it was. An instance of C7. -/
theorem Delete_removes_key_idempotent_witness :
    ∃ (db1 : LevelDB),
      Delete ⟨some ⟨fun k => if k = "b.txt" then some [7] else none, []⟩,
          some ⟨"a.txt", [1, 2]⟩⟩ = .ok ⟨some db1, some ⟨"a.txt", [1, 2]⟩⟩ ∧
      db1.data = (fun k => if k = "b.txt" then some [7] else none) :=
  have h := Delete_removes_key_idempotent
    ⟨fun k => if k = "b.txt" then some [7] else none, []⟩ ⟨"a.txt", [1, 2]⟩
  h.elim fun db1 h1 => h1.elim fun _ h2 =>
    ⟨db1, h2.1, h2.2.2.2.2.2.1 (by simp)⟩

/-- C10: when the store handle is nil, for every record (nil or not) `Update`
returns false and `Delete` returns; the same holds when the record pointer is
nil, whatever the store handle. No call panics, and the state after the call
is the state before it: no store operation was made and the record is as it
was. -/
theorem Update_Delete_noop_without_store (DB : Option LevelDB) (fh : Option FileHash) :
    Update ⟨none, fh⟩ = .ok (false, ⟨none, fh⟩) ∧
    Delete ⟨none, fh⟩ = .ok ⟨none, fh⟩ ∧
    Update ⟨DB, none⟩ = .ok (false, ⟨DB, none⟩) ∧
    Delete ⟨DB, none⟩ = .ok ⟨DB, none⟩ := by
  refine ⟨?_, ?_, ?_, ?_⟩ <;> simp [Update, Delete]

/-! ## Splitting a path and the ignore test -/

theorem afterFinal_of_not_mem (c : Char) (cs : List Char) (h : c ∉ cs) :
    afterFinal c cs = cs := by
  cases cs with
  | nil => rfl
  | cons x xs =>
    have hx : ¬ x = c := fun e => h (by simp [e])
    have hxs : c ∉ xs := fun e => h (by simp [e])
    simp [afterFinal, hx, hxs]

theorem splitChars_of_not_mem (sep : Char) (cs : List Char) (h : sep ∉ cs) :
    splitChars sep cs = [cs] := by
  induction cs with
  | nil => rfl
  | cons x xs ih =>
    have hx : ¬ x = sep := fun e => h (by simp [e])
    have hxs : sep ∉ xs := fun e => h (by simp [e])
    simp [splitChars, hx, ih hxs]

theorem splitChars_length (sep : Char) (cs : List Char) :
    (splitChars sep cs).length = cs.count sep + 1 := by
  induction cs with
  | nil => rfl
  | cons x xs ih =>
    by_cases hx : x = sep
    · subst hx
      simp [splitChars, ih]
    · cases hsp : splitChars sep xs with
      | nil => rw [hsp] at ih; simp at ih
      | cons piece pieces =>
        rw [hsp] at ih
        simp [splitChars, hsp, hx, List.count_cons] at ih ⊢
        exact ih

theorem splitChars_getLast? (sep : Char) (cs : List Char) :
    (splitChars sep cs).getLast? = some (afterFinal sep cs) := by
  induction cs with
  | nil => rfl
  | cons x xs ih =>
    by_cases hx : x = sep
    · subst hx
      cases hsp : splitChars x xs with
      | nil => rw [hsp] at ih; simp at ih
      | cons piece pieces =>
        rw [hsp] at ih
        by_cases hmem : x ∈ xs
        · simp [splitChars, hsp, afterFinal, hmem, List.getLast?_cons_cons, ih]
        · rw [splitChars_of_not_mem x xs hmem] at hsp
          simp [splitChars, afterFinal, hmem, splitChars_of_not_mem x xs hmem]
    · by_cases hmem : sep ∈ xs
      · cases hsp : splitChars sep xs with
        | nil => rw [hsp] at ih; simp at ih
        | cons piece pieces =>
          rw [hsp] at ih
          cases pieces with
          | nil =>
            exfalso
            have hlen := splitChars_length sep xs
            rw [hsp] at hlen
            have hpos : 0 < xs.count sep := List.count_pos_iff.mpr hmem
            simp at hlen
            omega
          | cons q qs =>
            simp [splitChars, hsp, hx, afterFinal, hmem, List.getLast?_cons_cons] at ih ⊢
            exact ih
      · simp [splitChars, hx, afterFinal, hmem, splitChars_of_not_mem sep xs hmem]

theorem sliceIndex_last {α : Type} (xs : List α) (a : α) (h : xs.getLast? = some a) :
    sliceIndex xs ((xs.length : Int) - 1) = .ok a := by
  have hne : xs ≠ [] := by
    intro e
    simp [e] at h
  have hpos : 0 < xs.length := List.length_pos.mpr hne
  have hlt : ¬ ((xs.length : Int) - 1 < 0) := by omega
  have hnat : ((xs.length : Int) - 1).toNat = xs.length - 1 := by omega
  have hget : xs.get? (xs.length - 1) = some a := by
    rw [List.getLast?_eq_getElem?] at h
    simpa using h
  simp only [sliceIndex, hlt, if_false, hnat, hget]

theorem findFrom_ge (slice : List String) (val : String) (i : Int) (hi : 0 ≤ i) :
    findFrom i slice val > -1 ↔ val ∈ slice := by
  induction slice generalizing i with
  | nil => simp [findFrom]
  | cons s rest ih =>
    by_cases hs : s = val
    · subst hs
      simp [findFrom]
      omega
    · have hs2 : ¬ val = s := fun e => hs e.symm
      simp only [findFrom, hs, if_false, List.mem_cons, hs2, false_or]
      exact ih (i + 1) (by omega)

/-- The modelled search answers membership: the result is above -1 exactly for
the entries of the list. -/
theorem findInStringSlice_gt_iff (slice : List String) (val : String) :
    findInStringSlice slice val > -1 ↔ val ∈ slice :=
  findFrom_ge slice val 0 (le_refl 0)

/-- The ignore test of `HashDir` never panics, and it asks whether the part of
the path after its final `.` is in the ignore-list. -/
theorem ignored_eq (Ignore : List String) (file : String) :
    ignored Ignore file = .ok (decide (lastDotPiece file ∈ Ignore)) := by
  have hlast : (stringsSplit file '.').getLast? = some (lastDotPiece file) := by
    simp [stringsSplit, lastDotPiece, List.getLast?_map, splitChars_getLast?]
  simp only [ignored, bind, Except.bind, sliceIndex_last _ _ hlast]
  congr 1
  exact decide_eq_decide.mpr (findInStringSlice_gt_iff Ignore (lastDotPiece file))

/-! ## The map of records -/

theorem GoMap.get_filter_ne (m : GoMap) (key p : String) (h : p ≠ key) :
    GoMap.get (m.filter (fun e => !decide (e.1 = key))) p = GoMap.get m p := by
  induction m with
  | nil => rfl
  | cons e rest ih =>
    obtain ⟨k, v⟩ := e
    by_cases hk : k = key
    · subst hk
      have hkp : ¬ k = p := fun e => h e.symm
      simp [List.filter_cons, GoMap.get, hkp, ih]
    · by_cases hkp : k = p
      · subst hkp
        simp [List.filter_cons, GoMap.get, hk]
      · simp [List.filter_cons, GoMap.get, hk, hkp, ih]

theorem GoMap.get_set (m : GoMap) (key : String) (value : FileHash) (p : String) :
    GoMap.get (GoMap.set m key value) p = if p = key then some value else GoMap.get m p := by
  by_cases h : p = key
  · subst h
    simp [GoMap.set, GoMap.get]
  · have h2 : ¬ key = p := fun e => h e.symm
    simp [GoMap.set, GoMap.get, h, h2, GoMap.get_filter_ne m key p h]

theorem GoMap.mem_keys_iff (m : GoMap) (p : String) :
    p ∈ GoMap.keys m ↔ GoMap.get m p ≠ none := by
  induction m with
  | nil => simp [GoMap.keys, GoMap.get]
  | cons e rest ih =>
    obtain ⟨k, v⟩ := e
    by_cases hk : k = p
    · simp [GoMap.keys, GoMap.get, hk]
    · have hk2 : ¬ p = k := fun e => hk e.symm
      simp only [GoMap.keys, List.map_cons, List.mem_cons, hk2, false_or, GoMap.get, hk,
        if_false]
      exact ih

theorem GoMap.keys_set_nodup (m : GoMap) (key : String) (value : FileHash)
    (h : (GoMap.keys m).Nodup) : (GoMap.keys (GoMap.set m key value)).Nodup := by
  simp only [GoMap.keys, GoMap.set, List.map_cons, List.nodup_cons]
  constructor
  · simp [List.mem_map, List.mem_filter]
  · exact (List.Nodup.sublist (List.Sublist.map _ (List.filter_sublist m)) h)

/-! ## One round of the loop of `HashDir` -/

/-- The loop at a file: a skipped file is passed over without a call on the
filesystem; another file is opened, and the loop goes on with its record in the
map, or the scan ends with the error and no map. -/
theorem hashLoop_cons (sha224 : Bytes → Bytes) (Ignore : List String) (file : String)
    (rest : List String) (hashes : GoMap) (d : Disk) :
    hashLoop sha224 Ignore (file :: rest) hashes d =
      if lastDotPiece file ∈ Ignore then hashLoop sha224 Ignore rest hashes d
      else
        match d.files file with
        | FileState.openFails err =>
          .ok ((none, some err), ⟨d.files, d.events ++ [FSEvent.opened file]⟩)
        | FileState.readFails _ err =>
          .ok ((none, some err),
            ⟨d.files, d.events ++ [FSEvent.opened file] ++ [FSEvent.closed file]⟩)
        | FileState.readable content =>
          hashLoop sha224 Ignore rest (GoMap.set hashes file ⟨file, sha224 content⟩)
            ⟨d.files, d.events ++ [FSEvent.opened file] ++ [FSEvent.closed file]⟩ := by
  by_cases hig : lastDotPiece file ∈ Ignore
  · simp [hashLoop, ignored_eq, hig, bind, Except.bind]
  · cases hf : d.files file <;>
      simp [hashLoop, ignored_eq, hig, bind, Except.bind, osOpen, hf, ioCopy, File.Close]

/-! ## The loop of `HashDir` as a whole -/

theorem Disk.readable_iff (d : Disk) (path : String) :
    d.readable path = true ↔ ∃ content, d.files path = FileState.readable content := by
  cases hf : d.files path <;> simp [Disk.readable, hf]

/-- The loop never panics and leaves the files on the filesystem alone. It
opens walked files that are not skipped, and nothing else. It ends with no map
and an error exactly when some walked file that is not skipped cannot be read
in full; otherwise it ends with a map, no error, and every walked file that is
not skipped has been opened. -/
theorem hashLoop_outcome (sha224 : Bytes → Bytes) (Ignore : List String)
    (files : List String) (hashes : GoMap) (d : Disk) :
    ∃ (res : Option GoMap × Option GoError) (ev : List FSEvent),
      hashLoop sha224 Ignore files hashes d = .ok (res, ⟨d.files, d.events ++ ev⟩) ∧
      (∀ p, FSEvent.opened p ∈ ev → p ∈ files ∧ lastDotPiece p ∉ Ignore) ∧
      (res.1 = none ↔ ∃ p, p ∈ files ∧ lastDotPiece p ∉ Ignore ∧ ¬ d.readable p) ∧
      (res.2 ≠ none ↔ res.1 = none) ∧
      (res.1 ≠ none → ∀ p, p ∈ files → lastDotPiece p ∉ Ignore → FSEvent.opened p ∈ ev) := by
  induction files generalizing hashes d with
  | nil =>
    refine ⟨(some hashes, none), [], ?_, ?_, ?_, ?_, ?_⟩
    · cases d
      simp [hashLoop]
    · simp
    · simp
    · simp
    · simp
  | cons file rest ih =>
    rw [hashLoop_cons]
    by_cases hig : lastDotPiece file ∈ Ignore
    · obtain ⟨res, ev, heq, hopen, hnone, herr, hall⟩ := ih hashes d
      refine ⟨res, ev, ?_, ?_, ?_, herr, ?_⟩
      · rw [if_pos hig, heq]
      · intro p hp
        exact ⟨List.mem_cons_of_mem _ (hopen p hp).1, (hopen p hp).2⟩
      · rw [hnone]
        constructor
        · rintro ⟨p, hp, hn, hr⟩
          exact ⟨p, List.mem_cons_of_mem _ hp, hn, hr⟩
        · rintro ⟨p, hp, hn, hr⟩
          rcases List.mem_cons.mp hp with h | h
          · subst h
            exact absurd hig hn
          · exact ⟨p, h, hn, hr⟩
      · intro hsome p hp hn
        rcases List.mem_cons.mp hp with h | h
        · subst h
          exact absurd hig hn
        · exact hall hsome p h hn
    · rw [if_neg hig]
      cases hf : d.files file with
      | openFails err =>
        refine ⟨(none, some err), [FSEvent.opened file], rfl, ?_, ?_, ?_, ?_⟩
        · intro p hp
          simp at hp
          subst hp
          exact ⟨List.mem_cons_self _ _, hig⟩
        · simp only [true_iff]
          exact ⟨file, List.mem_cons_self _ _, hig, by simp [Disk.readable, hf]⟩
        · simp
        · simp
      | readFails sofar err =>
        refine ⟨(none, some err), [FSEvent.opened file, FSEvent.closed file],
          ?_, ?_, ?_, ?_, ?_⟩
        · simp
        · intro p hp
          simp at hp
          subst hp
          exact ⟨List.mem_cons_self _ _, hig⟩
        · simp only [true_iff]
          exact ⟨file, List.mem_cons_self _ _, hig, by simp [Disk.readable, hf]⟩
        · simp
        · simp
      | readable content =>
        obtain ⟨res, ev, heq, hopen, hnone, herr, hall⟩ :=
          ih (GoMap.set hashes file ⟨file, sha224 content⟩)
            ⟨d.files, d.events ++ [FSEvent.opened file] ++ [FSEvent.closed file]⟩
        refine ⟨res, [FSEvent.opened file, FSEvent.closed file] ++ ev, ?_, ?_, ?_, herr, ?_⟩
        · simp only [heq]
          simp
        · intro p hp
          simp at hp
          rcases hp with h | h
          · subst h
            exact ⟨List.mem_cons_self _ _, hig⟩
          · exact ⟨List.mem_cons_of_mem _ (hopen p h).1, (hopen p h).2⟩
        · rw [hnone]
          constructor
          · rintro ⟨p, hp, hn, hr⟩
            exact ⟨p, List.mem_cons_of_mem _ hp, hn, hr⟩
          · rintro ⟨p, hp, hn, hr⟩
            rcases List.mem_cons.mp hp with h | h
            · subst h
              exact absurd ((Disk.readable_iff d p).mpr ⟨content, hf⟩) hr
            · exact ⟨p, h, hn, hr⟩
        · intro hsome p hp hn
          rcases List.mem_cons.mp hp with h | h
          · subst h
            simp
          · have := hall hsome p h hn
            simp [this]

/-- When the loop ends with a map, the map holds what it held before and,
under every walked file that is not skipped, the record of that path with the
digest of the bytes of the file; no key is there twice. -/
theorem hashLoop_map (sha224 : Bytes → Bytes) (Ignore : List String)
    (files : List String) (hashes : GoMap) (d : Disk) (m : GoMap) (err : Option GoError)
    (d1 : Disk) (h : hashLoop sha224 Ignore files hashes d = .ok ((some m, err), d1)) :
    (∀ p, GoMap.get m p =
      if p ∈ files ∧ lastDotPiece p ∉ Ignore then some ⟨p, sha224 (d.content p)⟩
      else GoMap.get hashes p) ∧
    ((GoMap.keys hashes).Nodup → (GoMap.keys m).Nodup) := by
  induction files generalizing hashes d with
  | nil =>
    simp [hashLoop] at h
    obtain ⟨⟨hm, _⟩, _⟩ := h
    subst hm
    simp
  | cons file rest ih =>
    rw [hashLoop_cons] at h
    by_cases hig : lastDotPiece file ∈ Ignore
    · rw [if_pos hig] at h
      obtain ⟨hget, hnodup⟩ := ih hashes d h
      refine ⟨?_, hnodup⟩
      intro p
      rw [hget p]
      by_cases hp : p = file
      · subst hp
        simp [hig]
      · simp [hp]
    · rw [if_neg hig] at h
      cases hf : d.files file with
      | openFails e => simp [hf] at h
      | readFails sofar e => simp [hf] at h
      | readable content =>
        simp only [hf] at h
        obtain ⟨hget, hnodup⟩ := ih _ _ h
        refine ⟨?_, fun hn => hnodup (GoMap.keys_set_nodup _ _ _ hn)⟩
        intro p
        rw [hget p, GoMap.get_set]
        by_cases hp : p = file
        · subst hp
          simp [hig, Disk.content, hf]
        · simp [hp, Disk.content]

/-! ## `Recalculate` -/

/-- The method `Recalculate` on a file that can be read in full: the record gets the path
and the digest of the bytes of the file, and is returned. -/
theorem Recalculate_readable (sha224 : Bytes → Bytes) (DB : Option LevelDB) (r : FileHash)
    (d : Disk) (path : String) (content : Bytes)
    (h : d.files path = FileState.readable content) :
    Recalculate sha224 ⟨DB, some r⟩ d path =
      .ok (some ⟨path, sha224 content⟩, ⟨DB, some ⟨path, sha224 content⟩⟩,
        ⟨d.files, d.events ++ [FSEvent.opened path] ++ [FSEvent.closed path]⟩) := by
  simp [Recalculate, deref, bind, Except.bind, osOpen, h, ioCopy, File.Close]

/-- The method `Recalculate` on a file that cannot be opened, or not be read in full: nil
is returned, and the record has the new path and the digest it had. -/
theorem Recalculate_unreadable (sha224 : Bytes → Bytes) (DB : Option LevelDB) (r : FileHash)
    (d : Disk) (path : String) (h : ¬ d.readable path) :
    ∃ ev, Recalculate sha224 ⟨DB, some r⟩ d path =
      .ok (none, ⟨DB, some ⟨path, r.Hash⟩⟩, ⟨d.files, d.events ++ ev⟩) := by
  cases hf : d.files path with
  | openFails err =>
    exact ⟨[FSEvent.opened path], by
      simp [Recalculate, deref, bind, Except.bind, osOpen, hf]⟩
  | readFails sofar err =>
    exact ⟨[FSEvent.opened path, FSEvent.closed path], by
      simp [Recalculate, deref, bind, Except.bind, osOpen, hf, ioCopy, File.Close]⟩
  | readable content => exact absurd ((Disk.readable_iff d path).mpr ⟨content, hf⟩) h

/-- C4, as the code has it: when `Recalculate(path)` fails (the file at path
cannot be opened, or a read error occurs) it returns nil and leaves the Hash of
the record equal to its value before the call, while PathOnDisk is path, the
argument of the call. The store handle and the files are as before. -/
theorem Recalculate_failure_keeps_hash_sets_path (sha224 : Bytes → Bytes)
    (DB : Option LevelDB) (r : FileHash) (d : Disk) (path : String)
    (h : (∃ err, d.files path = FileState.openFails err) ∨
      (∃ sofar err, d.files path = FileState.readFails sofar err)) :
    ∃ (w1 : World) (d1 : Disk) (r1 : FileHash),
      Recalculate sha224 ⟨DB, some r⟩ d path = .ok (none, w1, d1) ∧
      w1.fh = some r1 ∧ r1.Hash = r.Hash ∧ r1.PathOnDisk = path ∧
      w1.DB = DB ∧ d1.files = d.files := by
  have hnot : ¬ d.readable path := by
    intro hr
    obtain ⟨content, hc⟩ := (Disk.readable_iff d path).mp hr
    rcases h with ⟨err, he⟩ | ⟨sofar, err, he⟩ <;> rw [hc] at he <;> cases he
  obtain ⟨ev, hev⟩ := Recalculate_unreadable sha224 DB r d path hnot
  exact ⟨⟨DB, some ⟨path, r.Hash⟩⟩, ⟨d.files, d.events ++ ev⟩, ⟨path, r.Hash⟩, hev, rfl, rfl,
    rfl, rfl, rfl⟩

/-- A record for "old.txt" and a call for "new.txt", which cannot be opened: an
instance of C4 as the code has it. -/
theorem Recalculate_failure_keeps_hash_sets_path_witness :
    ∃ (w1 : World) (d1 : Disk) (r1 : FileHash),
      Recalculate (fun b => b) ⟨none, some ⟨"old.txt", [1, 2]⟩⟩
        ⟨fun _ => FileState.openFails "no such file", []⟩ "new.txt" = .ok (none, w1, d1) ∧
      w1.fh = some r1 ∧ r1.Hash = [1, 2] ∧ r1.PathOnDisk = "new.txt" :=
  have h := Recalculate_failure_keeps_hash_sets_path (fun b => b) none ⟨"old.txt", [1, 2]⟩
    ⟨fun _ => FileState.openFails "no such file", []⟩ "new.txt"
    (Or.inl ⟨"no such file", rfl⟩)
  h.elim fun w1 h1 => h1.elim fun d1 h2 => h2.elim fun r1 h3 =>
    ⟨w1, d1, r1, h3.1, h3.2.1, h3.2.2.1, h3.2.2.2.1⟩

/-- C4 fails as stated: a record for "old.txt" on which `Recalculate("new.txt")`
fails, because "new.txt" cannot be opened, has PathOnDisk "new.txt" afterwards,
not the value before the call. -/
theorem Recalculate_failure_changes_PathOnDisk :
    ∃ (w1 : World) (d1 : Disk),
      Recalculate (fun b => b) ⟨none, some ⟨"old.txt", [1, 2]⟩⟩
        ⟨fun _ => FileState.openFails "no such file", []⟩ "new.txt" = .ok (none, w1, d1) ∧
      w1.fh = some ⟨"new.txt", [1, 2]⟩ ∧
      w1.fh ≠ some ⟨"old.txt", [1, 2]⟩ :=
  ⟨⟨none, some ⟨"new.txt", [1, 2]⟩⟩,
    ⟨fun _ => FileState.openFails "no such file", [FSEvent.opened "new.txt"]⟩,
    rfl, rfl, by decide⟩

/-! ## The code's match key and the extension of the filename -/

theorem afterFinal_subset (c : Char) (cs : List Char) (x : Char)
    (h : x ∈ afterFinal c cs) : x ∈ cs := by
  induction cs with
  | nil => simp [afterFinal] at h
  | cons y ys ih =>
    by_cases hmem : c ∈ ys
    · simp only [afterFinal, hmem, if_true] at h
      exact List.mem_cons_of_mem _ (ih h)
    · by_cases hy : y = c
      · simp only [afterFinal, hmem, if_false, hy, if_true] at h
        exact List.mem_cons_of_mem _ h
      · simp only [afterFinal, hmem, if_false, hy] at h
        exact h

theorem afterFinal_afterFinal (s c : Char) (cs : List Char)
    (h : c ∈ afterFinal s cs) : afterFinal c (afterFinal s cs) = afterFinal c cs := by
  induction cs with
  | nil => simp [afterFinal] at h
  | cons y ys ih =>
    by_cases hmem : s ∈ ys
    · simp only [afterFinal, hmem, if_true] at h ⊢
      have hc : c ∈ ys := afterFinal_subset s ys c h
      simp only [hc, if_true]
      exact ih h
    · by_cases hy : y = s
      · simp only [afterFinal, hmem, if_false, hy, if_true] at h ⊢
        simp only [h, if_true]
      · simp only [afterFinal, hmem, if_false, hy]

/-- For a path whose filename contains a `.`, and for a path without a `/`,
the part after the final `.` of the path is the extension of the filename. -/
theorem lastDotPiece_eq_specExtension (path : String)
    (h : '.' ∈ (specFilename path).toList ∨ '/' ∉ path.toList) :
    lastDotPiece path = specExtension path := by
  have hlist : ∀ cs : List Char, (String.mk cs).toList = cs := fun _ => rfl
  rcases h with h | h
  · simp only [specFilename, hlist] at h
    simp only [lastDotPiece, specExtension, specFilename, hlist]
    rw [afterFinal_afterFinal '/' '.' path.data h]
  · have h2 : '/' ∉ path.data := h
    simp only [lastDotPiece, specExtension, specFilename, hlist]
    rw [afterFinal_of_not_mem '/' path.data h2]

/-! ## `HashDir` -/

/-- The function `HashDir` after a walk that succeeded is the loop over the walked files,
from the empty map. -/
theorem HashDir_walk_ok (filePathWalkDir : String → List String × Option GoError)
    (sha224 : Bytes → Bytes) (Ignore : List String) (d : Disk) (path : String)
    (files : List String) (h : filePathWalkDir path = (files, none)) :
    HashDir filePathWalkDir sha224 Ignore d path = hashLoop sha224 Ignore files [] d := by
  simp [HashDir, h]

/-- The function `HashDir` after a walk that failed returns the error of the walk and no
map, without a call on the filesystem. -/
theorem HashDir_walk_fails (filePathWalkDir : String → List String × Option GoError)
    (sha224 : Bytes → Bytes) (Ignore : List String) (d : Disk) (path : String)
    (files : List String) (err : GoError) (h : filePathWalkDir path = (files, some err)) :
    HashDir filePathWalkDir sha224 Ignore d path = .ok ((none, some err), d) := by
  simp [HashDir, h]

/-- C5, as the code has it: `HashDir` skips a walked path if and only if the
part of the whole path after its final `.` (the entire path when it contains no
`.`) is a member of the ignore-list. This is the test the loop makes, for every
path. In every scan, whatever can be read, a path that meets the test is never
opened and is a key of no returned map. In every scan that returns a map, a
walked path is skipped (no key, never opened) exactly when it meets the test.
A map is returned as soon as the walked files that are not skipped can be read;
a skipped file need not be readable. That part of the path is the extension of
the filename whenever the filename contains a `.` or the path has no directory
part. -/
theorem HashDir_skips_iff_last_dot_piece_ignored
    (filePathWalkDir : String → List String × Option GoError) (sha224 : Bytes → Bytes)
    (Ignore : List String) (d : Disk) (root : String) (files : List String)
    (hwalk : filePathWalkDir root = (files, none)) :
    ∃ (res : Option GoMap × Option GoError) (ev : List FSEvent),
      HashDir filePathWalkDir sha224 Ignore d root =
        .ok (res, ⟨d.files, d.events ++ ev⟩) ∧
      (∀ p, ignored Ignore p = .ok (decide (lastDotPiece p ∈ Ignore))) ∧
      (∀ p, lastDotPiece p ∈ Ignore →
        FSEvent.opened p ∉ ev ∧ ∀ m, res.1 = some m → p ∉ GoMap.keys m) ∧
      (∀ m, res.1 = some m → ∀ p, p ∈ files →
        (p ∉ GoMap.keys m ↔ lastDotPiece p ∈ Ignore) ∧
        (FSEvent.opened p ∉ ev ↔ lastDotPiece p ∈ Ignore)) ∧
      ((∀ p, p ∈ files → lastDotPiece p ∉ Ignore → d.readable p) →
        ∃ m, res = (some m, none)) ∧
      (∀ p, '.' ∈ (specFilename p).toList ∨ '/' ∉ p.toList →
        lastDotPiece p = specExtension p) := by
  obtain ⟨res, ev, heq, hopen, hnone, herr, hall⟩ := hashLoop_outcome sha224 Ignore files [] d
  obtain ⟨m1, e1⟩ := res
  have hkeys : ∀ m, m1 = some m → ∀ p,
      (p ∉ GoMap.keys m ↔ ¬ (p ∈ files ∧ lastDotPiece p ∉ Ignore)) := by
    intro m hm p
    subst hm
    have hget := (hashLoop_map sha224 Ignore files [] d m e1 _ heq).1
    rw [GoMap.mem_keys_iff, hget p]
    by_cases hc : p ∈ files ∧ lastDotPiece p ∉ Ignore
    · simp [hc]
    · simp [hc, GoMap.get]
  refine ⟨(m1, e1), ev, ?_, ignored_eq Ignore, ?_, ?_, ?_, lastDotPiece_eq_specExtension⟩
  · rw [HashDir_walk_ok _ _ _ _ _ files hwalk, heq]
  · intro p hig
    refine ⟨fun hmem => (hopen p hmem).2 hig, ?_⟩
    intro m hm
    exact (hkeys m hm p).mpr (fun hc => hc.2 hig)
  · intro m hm p hp
    refine ⟨?_, ?_⟩
    · rw [hkeys m hm p]
      constructor
      · intro hno
        by_contra hig
        exact hno ⟨hp, hig⟩
      · intro hig hc
        exact hc.2 hig
    · constructor
      · intro hno
        by_contra hig
        have hm1 : m1 = some m := hm
        have hsome : m1 ≠ none := by simp [hm1]
        exact hno (hall hsome p hp hig)
      · intro hig hmem
        exact (hopen p hmem).2 hig
  · intro hread
    have hsome : m1 ≠ none := by
      intro hm
      obtain ⟨p, hp, hig, hr⟩ := hnone.mp hm
      exact hr (hread p hp hig)
    have he1 : e1 = none := by
      by_contra hne
      exact hsome (herr.mp hne)
    obtain ⟨m, hm⟩ := Option.ne_none_iff_exists'.mp hsome
    exact ⟨m, by rw [← hm, he1]⟩

/-- The scan of the specification: ignore-list "tmp", "log" and the files
a.txt, b.tmp, c.log and d, where the skipped b.tmp cannot even be opened. The
result includes a.txt and d and excludes b.tmp and c.log, and b.tmp is never
opened. An instance of C5 as the code has it. -/
theorem HashDir_skips_iff_last_dot_piece_ignored_witness :
    ∃ (m : GoMap) (ev : List FSEvent),
      HashDir (fun _ => (["a.txt", "b.tmp", "c.log", "d"], none)) (fun b => b)
        ["tmp", "log"]
        ⟨fun p => if p = "b.tmp" then FileState.openFails "denied"
          else FileState.readable [1, 2], []⟩ "." =
        .ok ((some m, none),
          ⟨fun p => if p = "b.tmp" then FileState.openFails "denied"
            else FileState.readable [1, 2], [] ++ ev⟩) ∧
      "a.txt" ∈ GoMap.keys m ∧ "d" ∈ GoMap.keys m ∧
      "b.tmp" ∉ GoMap.keys m ∧ "c.log" ∉ GoMap.keys m ∧
      FSEvent.opened "b.tmp" ∉ ev := by
  obtain ⟨res, ev, heq, _, hskip, hiff, hmap, _⟩ :=
    HashDir_skips_iff_last_dot_piece_ignored
      (fun _ => (["a.txt", "b.tmp", "c.log", "d"], none)) (fun b => b) ["tmp", "log"]
      ⟨fun p => if p = "b.tmp" then FileState.openFails "denied"
        else FileState.readable [1, 2], []⟩ "."
      ["a.txt", "b.tmp", "c.log", "d"] rfl
  obtain ⟨m, hm⟩ := hmap (by
    intro p _ hig
    have hne : p ≠ "b.tmp" := by
      intro e
      subst e
      exact hig (by decide)
    simp [Disk.readable, hne])
  subst hm
  exact ⟨m, ev, heq,
    not_not.mp (fun hn => absurd ((hiff m rfl "a.txt" (by decide)).1.mp hn) (by decide)),
    not_not.mp (fun hn => absurd ((hiff m rfl "d" (by decide)).1.mp hn) (by decide)),
    (hskip "b.tmp" (by decide)).2 m rfl,
    (hskip "c.log" (by decide)).2 m rfl,
    (hskip "b.tmp" (by decide)).1⟩

/-- C5 fails as stated: with ignore-list "d" and the walked path "dir/d", the
filename is "d", it contains no `.`, and the entire filename is a member of the
ignore-list; yet `HashDir` does not skip the path: it opens the file and
returns its record. The code matches the part of the whole path after its final
`.`, here the entire path "dir/d". -/
theorem HashDir_keeps_file_whose_filename_is_ignored :
    specFilename "dir/d" = "d" ∧ '.' ∉ (specFilename "dir/d").toList ∧
    specExtension "dir/d" ∈ ["d"] ∧
    HashDir (fun _ => (["dir/d"], none)) (fun b => b) ["d"]
      ⟨fun _ => FileState.readable [1, 2], []⟩ "dir" =
      .ok ((some [("dir/d", ⟨"dir/d", [1, 2]⟩)], none),
        ⟨fun _ => FileState.readable [1, 2],
          [FSEvent.opened "dir/d", FSEvent.closed "dir/d"]⟩) := by
  refine ⟨by decide, by decide, by decide, ?_⟩
  have hig : lastDotPiece "dir/d" ∉ ["d"] := by decide
  rw [HashDir_walk_ok _ _ _ _ _ ["dir/d"] rfl, hashLoop_cons, if_neg hig]
  rfl

/-- C8: `HashDir` returns an error together with no map (nil) whenever the
directory walk fails or some walked file that is not skipped cannot be opened
or read in full, and only then; an error never comes with a map, so no map of
the files hashed before the failure is returned. Every file it opens is a
walked file that is not skipped: a skipped file is never opened, and whether
the scan fails does not depend on it. The call does not panic and leaves the
files as they are. -/
theorem HashDir_failure_returns_no_map
    (filePathWalkDir : String → List String × Option GoError) (sha224 : Bytes → Bytes)
    (Ignore : List String) (d : Disk) (root : String) :
    ∃ (res : Option GoMap × Option GoError) (ev : List FSEvent),
      HashDir filePathWalkDir sha224 Ignore d root = .ok (res, ⟨d.files, d.events ++ ev⟩) ∧
      (res.1 = none ↔
        ((filePathWalkDir root).2 ≠ none ∨
          ∃ p, p ∈ (filePathWalkDir root).1 ∧ lastDotPiece p ∉ Ignore ∧ ¬ d.readable p)) ∧
      (res.2 ≠ none ↔ res.1 = none) ∧
      (∀ p, FSEvent.opened p ∈ ev →
        p ∈ (filePathWalkDir root).1 ∧ lastDotPiece p ∉ Ignore) := by
  cases hw : filePathWalkDir root with
  | mk files werr =>
    cases werr with
    | some err =>
      refine ⟨(none, some err), [], ?_, ?_, ?_, ?_⟩
      · rw [HashDir_walk_fails _ _ _ _ _ files err hw]
        cases d
        simp
      · simp
      · simp
      · simp
    | none =>
      obtain ⟨res, ev, heq, hopen, hnone, herr, _⟩ :=
        hashLoop_outcome sha224 Ignore files [] d
      refine ⟨res, ev, ?_, ?_, herr, hopen⟩
      · rw [HashDir_walk_ok _ _ _ _ _ files hw, heq]
      · rw [hnone]
        simp

/-- C9: when the walk succeeds and every walked file that is not skipped can be
read in full, `HashDir` returns a map and no error. The keys of the map are
exactly the walked paths that are not skipped, each once. The record under a
key p has PathOnDisk p and as Hash the SHA-224 digest of the full contents of
the file at p, so two files with the same contents get the same digest, and the
record is the one `Recalculate(p)` returns, and leaves in its receiver, for the
same file. -/
theorem HashDir_success_records
    (filePathWalkDir : String → List String × Option GoError) (sha224 : Bytes → Bytes)
    (Ignore : List String) (d : Disk) (root : String) (files : List String)
    (hwalk : filePathWalkDir root = (files, none))
    (hread : ∀ p, p ∈ files → lastDotPiece p ∉ Ignore → d.readable p) :
    ∃ (m : GoMap) (ev : List FSEvent),
      HashDir filePathWalkDir sha224 Ignore d root =
        .ok ((some m, none), ⟨d.files, d.events ++ ev⟩) ∧
      (∀ p, p ∈ GoMap.keys m ↔ p ∈ files ∧ lastDotPiece p ∉ Ignore) ∧
      (GoMap.keys m).Nodup ∧
      (∀ p, p ∈ GoMap.keys m →
        d.files p = FileState.readable (d.content p) ∧
        GoMap.get m p = some ⟨p, sha224 (d.content p)⟩) ∧
      (∀ p q r s, GoMap.get m p = some r → GoMap.get m q = some s →
        d.content p = d.content q → r.Hash = s.Hash) ∧
      (∀ p, p ∈ GoMap.keys m → ∀ (DB : Option LevelDB) (r0 : FileHash) (d0 : Disk),
        d0.files p = d.files p →
        ∃ d2, Recalculate sha224 ⟨DB, some r0⟩ d0 p =
          .ok (GoMap.get m p, ⟨DB, GoMap.get m p⟩, d2)) := by
  obtain ⟨res, ev, heq, _, hnone, herr, _⟩ := hashLoop_outcome sha224 Ignore files [] d
  obtain ⟨m1, e1⟩ := res
  have hsome : m1 ≠ none := by
    intro hm
    obtain ⟨p, hp, hig, hr⟩ := hnone.mp hm
    exact hr (hread p hp hig)
  have he1 : e1 = none := by
    by_contra hne
    exact hsome (herr.mp hne)
  subst he1
  obtain ⟨m, hm⟩ := Option.ne_none_iff_exists'.mp hsome
  subst hm
  obtain ⟨hget, hnodup⟩ := hashLoop_map sha224 Ignore files [] d m none _ heq
  have hkeys : ∀ p, p ∈ GoMap.keys m ↔ p ∈ files ∧ lastDotPiece p ∉ Ignore := by
    intro p
    rw [GoMap.mem_keys_iff, hget p]
    by_cases hc : p ∈ files ∧ lastDotPiece p ∉ Ignore
    · simp [hc]
    · simp [hc, GoMap.get]
  have hrec : ∀ p, p ∈ GoMap.keys m →
      d.files p = FileState.readable (d.content p) ∧
      GoMap.get m p = some ⟨p, sha224 (d.content p)⟩ := by
    intro p hp
    have hc := (hkeys p).mp hp
    obtain ⟨content, hcontent⟩ := (Disk.readable_iff d p).mp (hread p hc.1 hc.2)
    refine ⟨?_, ?_⟩
    · simp [Disk.content, hcontent]
    · rw [hget p, if_pos hc]
  have hval : ∀ p r, GoMap.get m p = some r → r = ⟨p, sha224 (d.content p)⟩ := by
    intro p r hr
    have hp : p ∈ GoMap.keys m := by
      rw [GoMap.mem_keys_iff, hr]
      simp
    rw [(hrec p hp).2] at hr
    exact (Option.some.inj hr).symm
  refine ⟨m, ev, ?_, hkeys, hnodup (by simp [GoMap.keys]), hrec, ?_, ?_⟩
  · rw [HashDir_walk_ok _ _ _ _ _ files hwalk, heq]
  · intro p q r s hr hs hpq
    rw [hval p r hr, hval q s hs, hpq]
  · intro p hp DB r0 d0 hd0
    obtain ⟨hfile, hgetp⟩ := hrec p hp
    rw [hgetp]
    exact ⟨_, Recalculate_readable sha224 DB r0 d0 p (d.content p) (hd0.trans hfile)⟩

/-- Two readable files with the same contents, one of them skipped: an instance
of C9. -/
theorem HashDir_success_records_witness :
    ∃ (m : GoMap) (ev : List FSEvent),
      HashDir (fun _ => (["x.txt", "y.txt", "z.tmp"], none)) (fun b => b ++ b) ["tmp"]
        ⟨fun p => if p = "z.tmp" then FileState.openFails "denied"
          else FileState.readable [104, 105], []⟩ "." =
        .ok ((some m, none),
          ⟨fun p => if p = "z.tmp" then FileState.openFails "denied"
            else FileState.readable [104, 105], [] ++ ev⟩) ∧
      (∀ p, p ∈ GoMap.keys m ↔ p ∈ ["x.txt", "y.txt", "z.tmp"] ∧ lastDotPiece p ∉ ["tmp"]) ∧
      (GoMap.keys m).Nodup :=
  have h := HashDir_success_records
    (fun _ => (["x.txt", "y.txt", "z.tmp"], none)) (fun b => b ++ b) ["tmp"]
    ⟨fun p => if p = "z.tmp" then FileState.openFails "denied"
      else FileState.readable [104, 105], []⟩ "." ["x.txt", "y.txt", "z.tmp"] rfl
    (by
      intro p hp hig
      have hne : p ≠ "z.tmp" := by
        intro e
        subst e
        exact hig (by decide)
      simp [Disk.readable, hne])
  h.elim fun m h1 => h1.elim fun ev h2 => ⟨m, ev, h2.1, h2.2.1, h2.2.2.1⟩

/-! ## The reconciliation pass -/

theorem GoMap.get_of_mem (m : GoMap) (k : String) (r : FileHash)
    (hnodup : (GoMap.keys m).Nodup) (hmem : (k, r) ∈ m) : GoMap.get m k = some r := by
  induction m with
  | nil => simp at hmem
  | cons e rest ih =>
    obtain ⟨k1, r1⟩ := e
    simp only [GoMap.keys, List.map_cons, List.nodup_cons] at hnodup
    rcases List.mem_cons.mp hmem with h | h
    · cases h
      simp [GoMap.get]
    · have hne : ¬ k1 = k := by
        intro e
        subst e
        exact hnodup.1 (List.mem_map.mpr ⟨(k1, r), h, rfl⟩)
      simp only [GoMap.get, hne, if_false]
      exact ih hnodup.2 h

/-- The method `Update` on each record in turn, with an open store: no call panics, the
store stays open, a key that is the path of none of the records keeps what it
held, and no `Delete` is made on the store. -/
theorem updateAll_open (records : List FileHash) (db : LevelDB) :
    ∃ (report : List (String × Bool)) (db1 : LevelDB),
      updateAll records (some db) = .ok (report, some db1) ∧
      report.map Prod.fst = records.map FileHash.PathOnDisk ∧
      (∀ k, (∀ r, r ∈ records → r.PathOnDisk ≠ k) → db1.data k = db.data k) ∧
      (∀ k, DBOp.delete k ∈ db1.ops → DBOp.delete k ∈ db.ops) := by
  induction records generalizing db with
  | nil => exact ⟨[], db, rfl, rfl, fun _ _ => rfl, fun _ h => h⟩
  | cons r rest ih =>
    by_cases hsame : db.data r.PathOnDisk = some r.Hash
    · obtain ⟨report, db1, heq, hpaths, hframe, hdel⟩ :=
        ih ⟨db.data, db.ops ++ [DBOp.get r.PathOnDisk]⟩
      refine ⟨(r.PathOnDisk, false) :: report, db1, ?_, ?_, ?_, ?_⟩
      · simp [updateAll, Update_open, hsame, bind, Except.bind, heq]
      · simp [hpaths]
      · intro k hk
        exact hframe k (fun r1 hr1 => hk r1 (List.mem_cons_of_mem _ hr1))
      · intro k hk
        simpa using hdel k hk
    · obtain ⟨report, db1, heq, hpaths, hframe, hdel⟩ :=
        ih ⟨fun k => if k = r.PathOnDisk then some r.Hash else db.data k,
          db.ops ++ [DBOp.get r.PathOnDisk, DBOp.put r.PathOnDisk r.Hash]⟩
      refine ⟨(r.PathOnDisk, true) :: report, db1, ?_, ?_, ?_, ?_⟩
      · simp [updateAll, Update_open, hsame, bind, Except.bind, heq]
      · simp [hpaths]
      · intro k hk
        rw [hframe k (fun r1 hr1 => hk r1 (List.mem_cons_of_mem _ hr1))]
        have hne : ¬ k = r.PathOnDisk := fun e => hk r (List.mem_cons_self _ _) e.symm
        simp [hne]
      · intro k hk
        simpa using hdel k hk

/-- C6, as the code has it: a reconciliation pass (`HashDir` on the root, then
`Update` on every record it returns) against an open store makes no `Delete`,
and every key of the store that is not a path of the scan result holds after
the pass what it held before: a path that was in the store and is absent from
the new scan is still in the store, with the digest it had. -/
theorem reconcile_keeps_paths_absent_from_scan
    (filePathWalkDir : String → List String × Option GoError) (sha224 : Bytes → Bytes)
    (Ignore : List String) (d : Disk) (db : LevelDB) (root : String) :
    ∃ (report : Option (List (String × Bool))) (db1 : LevelDB),
      reconcile filePathWalkDir sha224 Ignore d (some db) root = .ok (report, some db1) ∧
      (∀ k, DBOp.delete k ∈ db1.ops → DBOp.delete k ∈ db.ops) ∧
      (∀ k, (∀ m err d1, HashDir filePathWalkDir sha224 Ignore d root =
          .ok ((some m, err), d1) → k ∉ GoMap.keys m) →
        db1.data k = db.data k) := by
  cases hw : filePathWalkDir root with
  | mk files werr =>
    cases werr with
    | some err =>
      refine ⟨none, db, ?_, fun _ h => h, fun _ _ => rfl⟩
      simp [reconcile, HashDir_walk_fails _ _ _ _ _ files err hw, bind, Except.bind]
    | none =>
      obtain ⟨res, ev, heq, _, _, _, _⟩ := hashLoop_outcome sha224 Ignore files [] d
      have hdir := HashDir_walk_ok filePathWalkDir sha224 Ignore d root files hw
      obtain ⟨m1, e1⟩ := res
      cases m1 with
      | none =>
        refine ⟨none, db, ?_, fun _ h => h, fun _ _ => rfl⟩
        simp [reconcile, hdir, heq, bind, Except.bind]
      | some m =>
        obtain ⟨hget, hnodup⟩ := hashLoop_map sha224 Ignore files [] d m e1 _ heq
        obtain ⟨report, db1, hup, _, hframe, hdel⟩ := updateAll_open (m.map Prod.snd) db
        refine ⟨some report, db1, ?_, hdel, ?_⟩
        · simp [reconcile, hdir, heq, bind, Except.bind, hup]
        · intro k hk
          have hkm : k ∉ GoMap.keys m := hk m e1 _ (hdir.trans heq)
          apply hframe k
          intro r hr hpath
          obtain ⟨⟨k1, r1⟩, hmem, hr1⟩ := List.mem_map.mp hr
          simp only at hr1
          subst hr1
          have hg := GoMap.get_of_mem m k1 r1 (hnodup (by simp [GoMap.keys])) hmem
          have hk1 : k1 ∈ GoMap.keys m := List.mem_map.mpr ⟨(k1, r1), hmem, rfl⟩
          rw [hget k1] at hg
          by_cases hc : k1 ∈ files ∧ lastDotPiece k1 ∉ Ignore
          · rw [if_pos hc] at hg
            have hr1 := Option.some.inj hg
            rw [← hr1] at hpath
            simp only at hpath
            rw [hpath] at hk1
            exact hkm hk1
          · rw [if_neg hc] at hg
            simp [GoMap.get] at hg

/-- C6 fails as stated: the store holds x.txt and y.txt, x.txt is deleted from
disk so that the scan finds y.txt only, and the pass is run. The scan result
has no x.txt, yet x.txt is still a key of the store, with its old digest. -/
theorem reconcile_leaves_deleted_file_in_store :
    ∃ (db1 : LevelDB),
      reconcile (fun _ => (["y.txt"], none)) (fun b => b) []
        ⟨fun p => if p = "y.txt" then FileState.readable [2] else FileState.openFails "gone",
          []⟩
        (some ⟨fun k => if k = "x.txt" then some [1] else if k = "y.txt" then some [2]
          else none, []⟩) "." = .ok (some [("y.txt", false)], some db1) ∧
      db1.data "x.txt" = some [1] ∧
      db1.data "x.txt" ≠ none := by
  refine ⟨⟨fun k => if k = "x.txt" then some [1] else if k = "y.txt" then some [2]
    else none, [DBOp.get "y.txt"]⟩, ?_, by simp, by simp⟩
  have hig : lastDotPiece "y.txt" ∉ ([] : List String) := by simp
  have hdir : HashDir (fun _ => (["y.txt"], none)) (fun b => b) []
      ⟨fun p => if p = "y.txt" then FileState.readable [2] else FileState.openFails "gone",
        []⟩ "." =
      .ok ((some [("y.txt", ⟨"y.txt", [2]⟩)], none),
        ⟨fun p => if p = "y.txt" then FileState.readable [2] else FileState.openFails "gone",
          [FSEvent.opened "y.txt", FSEvent.closed "y.txt"]⟩) := by
    rw [HashDir_walk_ok _ _ _ _ _ ["y.txt"] rfl, hashLoop_cons, if_neg hig]
    rfl
  simp [reconcile, hdir, bind, Except.bind, updateAll, Update_open]

end IpfsSync
